import Mathlib

/-!
Shallow embedding of the opengrid world-generation and viewport engine.

Sources embedded here:
* `src/wasm/src/world/chunk.rs`  — chunk generator, LRU chunk cache, visibility resolver;
* `src/wasm/src/world/camera.rs` and `src/packages/world/rust/src/camera.rs` — camera transforms;
* `src/packages/renderer/rust/src/lib.rs` — salesman path interpolation (`SalesmanPath::get_position`);
* `src/wasm/src/lib.rs` — the duplicate exported `generate_chunk`.

Machine integers are modelled as `Nat` with explicit `% 2^32` / `% 2^64` where the Rust
code wraps; `i32`/`i64` values entering bit-level computations go through their
two's-complement bit patterns (`tc32`, `tc64`).  The PRNG is `rand_pcg::Pcg32`
(`Lcg64Xsh32`) seeded through `rand_core` 0.6's default `SeedableRng::seed_from_u64`,
both translated below from their published sources.  The floating-point camera and
interpolation arithmetic is modelled over `ℚ` (every f64 value arising in the claims is
an exact dyadic rational and the claims are about exact arithmetic / branch selection).
-/

/-- PCG multiplier used by `rand_pcg::Lcg64Xsh32` (and by `rand_core`'s
default `seed_from_u64` state expansion). -/
def PCG_MULT : Nat := 6364136223846793005

/-- Increment used by `rand_core` 0.6's default `seed_from_u64` expansion. -/
def SEED_INC : Nat := 11634580027462260723

/-- Rust `u32::rotate_right`: rotation amount is taken mod 32; result masked to 32 bits. -/
def rotr32 (x r : Nat) : Nat :=
  ((x >>> (r % 32)) ||| (x <<< ((32 - r % 32) % 32))) % 2 ^ 32

/-- The PCG XSH-RR output function on a 64-bit state word:
`xorshifted = (((state >> 18) ^ state) >> 27) as u32; rot = (state >> 59) as u32;
xorshifted.rotate_right(rot)`. -/
def pcg_output (state : Nat) : Nat :=
  rotr32 ((((state >>> 18) ^^^ state) >>> 27) % 2 ^ 32) (state >>> 59)

/-- State of `rand_pcg::Pcg32` (`Lcg64Xsh32`): a 64-bit LCG state and a 64-bit odd
increment (the stream). -/
structure Pcg32 where
  state : Nat
  inc : Nat
  deriving Repr, DecidableEq

/-- One LCG step: `state = state * MULTIPLIER + increment` on u64. -/
def pcg_step (p : Pcg32) : Pcg32 :=
  ⟨(p.state * PCG_MULT + p.inc) % 2 ^ 64, p.inc⟩

/-- The `Pcg32::next_u32`: output computed from the pre-step state, then step. -/
def next32 (p : Pcg32) : Nat × Pcg32 :=
  (pcg_output p.state, pcg_step p)

/-- The `Pcg32::next_u64` = `next_u64_via_u32`: low word first, then high word. -/
def next64 (p : Pcg32) : Nat × Pcg32 :=
  let lo := next32 p
  let hi := next32 lo.2
  (lo.1 + (hi.1 <<< 32), hi.2)

/-- One round of `rand_core` 0.6's default `seed_from_u64` expansion: advance the
SplitMix-style LCG, emit a PCG-output word. -/
def seed_mix (state : Nat) : Nat × Nat :=
  let st := (state * PCG_MULT + SEED_INC) % 2 ^ 64
  (pcg_output st, st)

/-- The `Pcg32::seed_from_u64 v` (rand_core 0.6 default expansion into a 16-byte seed,
then `Lcg64Xsh32::from_seed`): the first two expansion words form the initial state,
the last two form the stream; increment = `(stream << 1) | 1`; the constructor adds
the increment to the state and steps once. -/
def pcg32_seed_from_u64 (v : Nat) : Pcg32 :=
  let r0 := seed_mix (v % 2 ^ 64)
  let r1 := seed_mix r0.2
  let r2 := seed_mix r1.2
  let r3 := seed_mix r2.2
  let state0 := r0.1 + (r1.1 <<< 32)
  let stream := r2.1 + (r3.1 <<< 32)
  let inc := ((stream <<< 1) ||| 1) % 2 ^ 64
  pcg_step ⟨(state0 + inc) % 2 ^ 64, inc⟩

/-- The `rng.gen_range(0..64)` on `i32` with rand 0.8 (`sample_single_inclusive 0 63`):
range = 64, zone = `(64 << 25) - 1 = 2^31 - 1`; draw `v : u32`, widening-multiply by 64,
accept iff the low product word is `≤ zone`, returning the high word; otherwise redraw.
The rejection loop is given explicit fuel (the source loop retries with probability
1/2 per draw); on fuel exhaustion we return 0, a case never reached on the concrete
inputs evaluated in this file. -/
def gen_range64 : Nat → Pcg32 → Nat × Pcg32
  | 0, p => (0, p)
  | fuel + 1, p =>
    let d := next32 p
    if (d.1 * 64) % 2 ^ 32 ≤ 2 ^ 31 - 1 then ((d.1 * 64) >>> 32, d.2)
    else gen_range64 fuel d.2

/-- Two's-complement bit pattern of an integer as an `i64` word. -/
def tc64 (z : Int) : Nat := (z % (2 ^ 64 : Int)).toNat

/-- Two's-complement bit pattern of an integer as an `i32` word. -/
def tc32 (z : Int) : Nat := (z % (2 ^ 32 : Int)).toNat

/-- The `src/wasm/src/world/chunk.rs` constants. -/
def CHUNK_SIZE : Nat := 64

def MAX_CACHED_CHUNKS : Nat := 100

/-- Exact integer significand of the `f64` literal `0.02`: the IEEE-754 double nearest
0.02 is `5764607523034235 * 2^(-58)`. -/
def DENSITY_NUM : Nat := 5764607523034235

/-- The `(num_cells as f64 * CITY_DENSITY).round() as usize` with `num_cells = 4096`:
`4096 * fl(0.02)` is exact (a power-of-two scaling), equal to `DENSITY_NUM * 2^(-46)`
(≈ 81.92); `f64::round` rounds half away from zero, which for this positive value is
`⌊x + 1/2⌋`. -/
def target_count : Nat := (DENSITY_NUM + 2 ^ 45) / 2 ^ 46

/-- The `ChunkCoord` from `src/wasm/src/world/chunk.rs` (`i32` pair). -/
structure ChunkCoord where
  x : Int
  y : Int
  deriving Repr, DecidableEq

/-- The `City` from `src/wasm/src/world/chunk.rs`. -/
structure City where
  grid_x : Nat
  grid_y : Nat
  seed : Nat
  deriving Repr, DecidableEq

/-- The `worldSeed ^ (coord.x * 73856093) ^ (coord.y * 19349663)` computed on `i64`
(`world_seed as i64` zero-extends the `u32`; the products do not overflow for `i32`
coordinates, and XOR acts on the two's-complement bit patterns), then `as u64`. -/
def chunk_seed (world_seed : Nat) (coord : ChunkCoord) : Nat :=
  (world_seed % 2 ^ 32) ^^^ tc64 (coord.x * 73856093) ^^^ tc64 (coord.y * 19349663)

/-- The candidate loop of `ChunkCache::generate_chunk`: repeat `n` times — draw
`grid_x`, `grid_y` with `gen_range(0..CHUNK_SIZE)`; form `pos_key = grid_y * 64 + grid_x`;
if the key is already used `continue` (dropping the candidate **before** the seed draw);
otherwise record the key, draw `seed = rng.gen::<u32>() & 0x3FFFFFFF` and push the city. -/
def gen_loop : Nat → Pcg32 → List Nat → List City → List City × Pcg32
  | 0, r, _, acc => (acc, r)
  | n + 1, r, used, acc =>
    let d1 := gen_range64 64 r
    let d2 := gen_range64 64 d1.2
    let key := d2.1 * 64 + d1.1
    if key ∈ used then
      gen_loop n d2.2 used acc
    else
      let d3 := next32 d2.2
      gen_loop n d3.2 (key :: used) (acc ++ [⟨d1.1, d2.1, d3.1 &&& 0x3FFFFFFF⟩])

/-- The `ChunkData` from `src/wasm/src/world/chunk.rs`. -/
structure ChunkData where
  coord : ChunkCoord
  cities : List City
  last_used : Nat
  deriving Repr, DecidableEq

/-- The candidate loop run from the initial state (empty used-set, empty city list),
keeping the produced city list. -/
def gen_cities_aux (n : Nat) (r : Pcg32) : List City :=
  (gen_loop n r [] []).1

/-- The city list computed by `ChunkCache::generate_chunk`: seed the PRNG from the
mixed chunk seed and run the candidate loop for `expected_cities = target_count`
iterations starting from an empty used-set. -/
def generate_cities (world_seed : Nat) (coord : ChunkCoord) : List City :=
  gen_cities_aux target_count (pcg32_seed_from_u64 (chunk_seed world_seed coord))

/-- The `ChunkCache::generate_chunk` (the method reads `self.world_seed` and, for the
`last_used` stamp only, `self.frame_counter`; both are passed explicitly here). -/
def generate_chunk (world_seed frame_counter : Nat) (coord : ChunkCoord) : ChunkData :=
  { coord := coord
    cities := generate_cities world_seed coord
    last_used := frame_counter }

/-- Modelled from the spec (claim C2's reading of §4.1): a candidate-generation loop
that consumes the 30-bit seed draw for **every** candidate, colliding or not.  This is
what claim C2 asserts the code does; it is compared against `gen_loop` (translated from
the source, where `continue` skips the seed draw on collision). -/
def gen_loop_claimC2 : Nat → Pcg32 → List Nat → List City → List City × Pcg32
  | 0, r, _, acc => (acc, r)
  | n + 1, r, used, acc =>
    let d1 := gen_range64 64 r
    let d2 := gen_range64 64 d1.2
    let d3 := next32 d2.2
    let key := d2.1 * 64 + d1.1
    if key ∈ used then
      gen_loop_claimC2 n d3.2 used acc
    else
      gen_loop_claimC2 n d3.2 (key :: used) (acc ++ [⟨d1.1, d2.1, d3.1 &&& 0x3FFFFFFF⟩])

/-- State threaded through one candidate iteration of the generation loop. -/
structure GenState where
  rng : Pcg32
  used : List Nat
  cities : List City
  deriving Repr, DecidableEq

/-- One candidate iteration, stated as the amended claim C2 describes it: the two
position draws (each an integer in [0,64)) are always consumed; a colliding candidate
is dropped, not retried, and consumes nothing further; only an accepted candidate
consumes the 30-bit-masked seed draw. -/
def candidate_step (st : GenState) : GenState :=
  let d1 := gen_range64 64 st.rng
  let d2 := gen_range64 64 d1.2
  let key := d2.1 * 64 + d1.1
  if key ∈ st.used then
    { st with rng := d2.2 }
  else
    let d3 := next32 d2.2
    { rng := d3.2, used := key :: st.used
      cities := st.cities ++ [⟨d1.1, d2.1, d3.1 &&& 0x3FFFFFFF⟩] }

/-- The amended-claim generation loop: exactly `n` candidate iterations of
`candidate_step`, starting from an empty used-set and city list. -/
def gen_amended (n : Nat) (r : Pcg32) : GenState :=
  candidate_step^[n] ⟨r, [], []⟩

/-! The duplicate exported generator in `src/wasm/src/lib.rs`. -/

/-- City type of `src/wasm/src/lib.rs` (normalized f64 coordinates, full u32 seed). -/
structure LibCity where
  local_x : ℚ
  local_y : ℚ
  seed : Nat
  deriving Repr, DecidableEq

/-- The `world_seed.wrapping_mul(73856093).wrapping_add(chunk_x as u32)
.wrapping_mul(19349663).wrapping_add(chunk_y as u32)` on u32, then `as u64`. -/
def lib_chunk_seed (world_seed : Nat) (x y : Int) : Nat :=
  ((world_seed % 2 ^ 32) * 73856093 % 2 ^ 32 + tc32 x) % 2 ^ 32 * 19349663 % 2 ^ 32
    |> (· + tc32 y) |> (· % 2 ^ 32)

/-- The `rng.gen_range(0.0..1.0)` for `f64` with rand 0.8 (`UniformFloat::sample_single`
with `low = 0.0`, `high = 1.0`, `scale = 1.0`): draw one u64, keep the top 52 bits as
the fraction of a float in [1,2), subtract 1; every step is exact, the result is the
dyadic rational `(v >> 12) / 2^52` and the `res < high` test always passes on the
first draw. -/
def f64_unit_range (v : Nat) : ℚ := ((v >>> 12 : Nat) : ℚ) / 2 ^ 52

/-- The `((CHUNK_SIZE * CHUNK_SIZE) as f64 * DENSITY) as usize` in `src/wasm/src/lib.rs`:
`4096 * fl(0.02) = DENSITY_NUM * 2^(-46)` (≈ 81.92) truncated toward zero by the
`as usize` cast. -/
def lib_expected_count : Nat := DENSITY_NUM / 2 ^ 46

/-- The loop of `src/wasm/src/lib.rs::generate_chunk`: `n` iterations, each drawing
`local_x`, `local_y` (one u64 each) and a full u32 `seed`, pushing unconditionally —
no collision filtering. -/
def lib_gen_loop : Nat → Pcg32 → List LibCity → List LibCity × Pcg32
  | 0, r, acc => (acc, r)
  | n + 1, r, acc =>
    let dx := next64 r
    let dy := next64 dx.2
    let ds := next32 dy.2
    lib_gen_loop n ds.2 (acc ++ [⟨f64_unit_range dx.1, f64_unit_range dy.1, ds.1⟩])

/-- The `lib.rs` generation loop run from an empty accumulator, keeping the city list. -/
def lib_cities_aux (n : Nat) (r : Pcg32) : List LibCity :=
  (lib_gen_loop n r []).1

/-- The `src/wasm/src/lib.rs::generate_chunk` (the duplicate exported generator). -/
def generate_chunk_lib (world_seed : Nat) (x y : Int) : List LibCity :=
  lib_cities_aux lib_expected_count (pcg32_seed_from_u64 (lib_chunk_seed world_seed x y))

/-! The chunk cache (`ChunkCache` in `src/wasm/src/world/chunk.rs`).

The Rust cache is a `std::collections::HashMap` whose iteration order (the order
`self.cache.iter()` yields entries to `evict_if_needed`) is unspecified and, with the
default `RandomState` hasher, varies between processes.  The model makes that order an
explicit input: an *oracle* function producing, for the cache state at the moment of
eviction, the `(key, last_used)` snapshot in some order.  An oracle is *valid* when it
yields a permutation of the true snapshot; theorems about the cache quantify over valid
oracles, and counterexamples exhibit a concrete valid oracle. -/

/-- Association-list lookup (`HashMap::get`): keys are unique in a well-formed cache. -/
def lookupKey (k : ChunkCoord) : List (ChunkCoord × ChunkData) → Option ChunkData
  | [] => none
  | p :: rest => if p.1 = k then some p.2 else lookupKey k rest

/-- The `HashMap::get_mut` + `chunk.last_used = frame_counter`: stamp the entry with key `k`. -/
def stampKey (k : ChunkCoord) (fc : Nat) (l : List (ChunkCoord × ChunkData)) :
    List (ChunkCoord × ChunkData) :=
  l.map fun p => if p.1 = k then (p.1, { p.2 with last_used := fc }) else p

/-- The `HashMap::remove`: remove the (unique) entry with key `k`. -/
def removeKey (k : ChunkCoord) : List (ChunkCoord × ChunkData) → List (ChunkCoord × ChunkData)
  | [] => []
  | p :: rest => if p.1 = k then rest else p :: removeKey k rest

/-- The `ChunkCache` from `src/wasm/src/world/chunk.rs`; the `HashMap` is modelled as an
association list with unique keys (list order is immaterial to the map semantics; the
iteration order used by eviction comes from the oracle). -/
structure ChunkCache where
  world_seed : Nat
  cache : List (ChunkCoord × ChunkData)
  frame_counter : Nat

/-- The `ChunkCache::new`. -/
def ChunkCache.new (world_seed : Nat) : ChunkCache := ⟨world_seed, [], 0⟩

/-- The `ChunkCache::cached_count`. -/
def cached_count (c : ChunkCache) : Nat := c.cache.length

/-- The `ChunkCache::advance_frame`. -/
def advance_frame (c : ChunkCache) : ChunkCache :=
  { c with frame_counter := c.frame_counter + 1 }

/-- The `(key, last_used)` pairs of the cache, in the model's list order — the data the
Rust code collects into `entries` before sorting. -/
def snapshot (c : ChunkCache) : List (ChunkCoord × Nat) :=
  c.cache.map fun p => (p.1, p.2.last_used)

/-- A HashMap-iteration-order oracle. -/
def CacheOrder : Type := ChunkCache → List (ChunkCoord × Nat)

/-- An oracle is valid when it returns the true entry snapshot in some order. -/
def ValidOrder (o : CacheOrder) : Prop := ∀ c : ChunkCache, (o c).Perm (snapshot c)

/-- Stable sort by `last_used` (insertion sort; a stable sort is extensionally unique,
so this agrees with Rust's stable `sort_by_key(|(_, t)| *t)` on the same input order). -/
def sortByLU (l : List (ChunkCoord × Nat)) : List (ChunkCoord × Nat) :=
  l.insertionSort fun a b => a.2 ≤ b.2

/-- The `to_remove` prefix taken by `evict_if_needed`: the first
`len - MAX_CACHED_CHUNKS` entries of the sorted snapshot. -/
def evicted_entries (o : CacheOrder) (c : ChunkCache) : List (ChunkCoord × Nat) :=
  (sortByLU (o c)).take (c.cache.length - MAX_CACHED_CHUNKS)

/-- The `ChunkCache::evict_if_needed`: no-op at or below capacity; otherwise sort the
snapshot (in HashMap iteration order, from the oracle) stably by `last_used` and remove
the first `len - MAX_CACHED_CHUNKS` keys. -/
def evict_if_needed (o : CacheOrder) (c : ChunkCache) : ChunkCache :=
  if c.cache.length ≤ MAX_CACHED_CHUNKS then c
  else { c with cache := (evicted_entries o c).foldl (fun m e => removeKey e.1 m) c.cache }

/-- The `ChunkCache::get_or_generate`: on a miss, generate, insert, then evict if needed;
in all cases stamp the entry's `last_used` with the current frame counter and return
`self.cache.get(&coord)` — the source unwraps this `Option`; `none` models the panic. -/
def get_or_generate (o : CacheOrder) (c : ChunkCache) (coord : ChunkCoord) :
    Option ChunkData × ChunkCache :=
  let c1 :=
    if (lookupKey coord c.cache).isNone then
      evict_if_needed o
        { c with cache := (coord, generate_chunk c.world_seed c.frame_counter coord) :: c.cache }
    else c
  let c2 := { c1 with cache := stampKey coord c1.frame_counter c1.cache }
  (lookupKey coord c2.cache, c2)

/-- A sequence of `get_or_generate` calls (discarding the returned references). -/
def run_requests (o : CacheOrder) : ChunkCache → List ChunkCoord → ChunkCache
  | c, [] => c
  | c, k :: ks => run_requests o (get_or_generate o c k).2 ks

/-! Camera (`src/wasm/src/world/camera.rs` and `src/packages/world/rust/src/camera.rs`;
the two files define identical `screen_to_world` / `world_to_screen` formulas and
differ only in `MIN_ZOOM`). -/

/-- Camera state (f64 fields modelled over `ℚ`). -/
structure Camera where
  x : ℚ
  y : ℚ
  zoom : ℚ
  width : ℚ
  height : ℚ
  deriving Repr, DecidableEq

/-- The `MIN_ZOOM` in `src/wasm/src/world/camera.rs`. -/
def MIN_ZOOM_wasm : ℚ := 5

/-- The `MIN_ZOOM` in `src/packages/world/rust/src/camera.rs`. -/
def MIN_ZOOM_pkg : ℚ := 2

/-- The `MAX_ZOOM` (both camera files). -/
def MAX_ZOOM : ℚ := 100

/-- The `Camera::screen_to_world`. -/
def screen_to_world (c : Camera) (sx sy : ℚ) : ℚ × ℚ :=
  (c.x + sx / c.zoom, c.y + sy / c.zoom)

/-- The `Camera::world_to_screen`. -/
def world_to_screen (c : Camera) (wx wy : ℚ) : ℚ × ℚ :=
  ((wx - c.x) * c.zoom, (wy - c.y) * c.zoom)

/-! Salesman path interpolation (`src/packages/renderer/rust/src/lib.rs`). -/

/-- The `Waypoint` from `src/packages/renderer/rust/src/lib.rs`. -/
structure Waypoint where
  x : ℚ
  y : ℚ
  arrival_time : ℚ
  deriving Repr, DecidableEq

/-- The `SalesmanPath` from `src/packages/renderer/rust/src/lib.rs`. -/
structure SalesmanPath where
  id : Nat
  color : Nat
  speed : ℚ
  waypoints : List Waypoint
  deriving Repr, DecidableEq

/-- The segment-search loop of `SalesmanPath::get_position`: scan adjacent waypoint
pairs in order; the first pair with `elapsed >= current.arrival_time &&
elapsed < next.arrival_time` produces the interpolated position (snapping to the far
endpoint if the segment duration is ≤ 0); `none` when no pair matches. -/
def find_segment : List Waypoint → ℚ → Option (ℚ × ℚ × Bool)
  | w1 :: w2 :: rest, elapsed =>
    if w1.arrival_time ≤ elapsed ∧ elapsed < w2.arrival_time then
      if w2.arrival_time - w1.arrival_time ≤ 0 then some (w2.x, w2.y, false)
      else
        let t := (elapsed - w1.arrival_time) / (w2.arrival_time - w1.arrival_time)
        some (w1.x + (w2.x - w1.x) * t, w1.y + (w2.y - w1.y) * t, false)
    else find_segment (w2 :: rest) elapsed
  | _, _ => none

/-- The body of `SalesmanPath::get_position` on the waypoint list: empty path →
`(0, 0, true)`; single waypoint → that point, settled; otherwise the segment scan,
falling through to the final waypoint with `settled = true` when no segment matches. -/
def get_position_list : List Waypoint → ℚ → ℚ × ℚ × Bool
  | [], _ => (0, 0, true)
  | [w], _ => (w.x, w.y, true)
  | w1 :: w2 :: rest, elapsed =>
    match find_segment (w1 :: w2 :: rest) elapsed with
    | some res => res
    | none =>
      let last := (w1 :: w2 :: rest).getLast (List.cons_ne_nil _ _)
      (last.x, last.y, true)

/-- The `SalesmanPath::get_position`. -/
def get_position (p : SalesmanPath) (elapsed : ℚ) : ℚ × ℚ × Bool :=
  get_position_list p.waypoints elapsed

/-! Visibility resolver (`ChunkCache::get_visible_chunks`). -/

/-- Rust saturating cast `f64 → i32` applied to an exact integer value. -/
def i32sat (z : Int) : Int := max (-(2 ^ 31)) (min (2 ^ 31 - 1) z)

/-- The inclusive integer range `lo..=hi` as a list. -/
def intRange (lo hi : Int) : List Int :=
  (List.range (hi + 1 - lo).toNat).map fun i : Nat => lo + (i : Int)

/-- The `ChunkCache::get_visible_chunks`: viewport world rectangle
`[x, x + w/zoom] × [y, y + h/zoom]`, divided by 64 with floor on the low edge and ceil
on the high edge, enumerated inclusively, outer loop on `cx`. -/
def get_visible_chunks (camera_x camera_y zoom viewport_width viewport_height : ℚ) :
    List ChunkCoord :=
  let view_left := camera_x
  let view_right := camera_x + viewport_width / zoom
  let view_top := camera_y
  let view_bottom := camera_y + viewport_height / zoom
  let min_cx := i32sat ⌊view_left / 64⌋
  let max_cx := i32sat ⌈view_right / 64⌉
  let min_cy := i32sat ⌊view_top / 64⌋
  let max_cy := i32sat ⌈view_bottom / 64⌉
  (intRange min_cx max_cx).flatMap fun cx =>
    (intRange min_cy max_cy).map fun cy => ChunkCoord.mk cx cy

/-- The PRNG state left by the candidate loop run from the initial state. -/
def gen_rng_aux (n : Nat) (r : Pcg32) : Pcg32 :=
  (gen_loop n r [] []).2

/-- An iteration-order oracle that yields the entry with key `k` first — one of the
orders an unspecified-order `HashMap` iteration may produce. -/
def frontOrder (k : ChunkCoord) : CacheOrder := fun c =>
  (snapshot c).filter (fun e => e.1 == k) ++ (snapshot c).filter fun e => !(e.1 == k)

/-- A cache at capacity: 100 entries with coordinates `(0,0) … (99,0)`, all with
`last_used = 0`, frame counter 0. -/
def cex_cache_100 : ChunkCache :=
  ⟨42, (List.range 100).map fun i => (⟨Int.ofNat i, 0⟩, ⟨⟨Int.ofNat i, 0⟩, [], 0⟩), 0⟩

/-- A cache one past capacity: 101 dummy entries, all with `last_used = 0`. -/
def cex_cache_101 : ChunkCache :=
  ⟨42, (List.range 101).map fun i => (⟨Int.ofNat i, 0⟩, ⟨⟨Int.ofNat i, 0⟩, [], 0⟩), 0⟩

/-- The 101 distinct coordinates `(0,0) … (100,0)`. -/
def coords101 : List ChunkCoord := (List.range 101).map fun i => ⟨Int.ofNat i, 0⟩

instance : IsTotal (ChunkCoord × Nat) (fun a b => a.2 ≤ b.2) :=
  ⟨fun a b => Nat.le_total a.2 b.2⟩

instance : IsTrans (ChunkCoord × Nat) (fun a b => a.2 ≤ b.2) :=
  ⟨fun _ _ _ h1 h2 => le_trans h1 h2⟩

/-- Closed axis-aligned rectangle in world coordinates. -/
structure WRect where
  lox : ℚ
  loy : ℚ
  hix : ℚ
  hiy : ℚ
  deriving Repr, DecidableEq

/-- The 64×64 world rectangle of a chunk coordinate. -/
def chunkRect (c : ChunkCoord) : WRect :=
  ⟨64 * c.x, 64 * c.y, 64 * c.x + 64, 64 * c.y + 64⟩

/-- Two closed rectangles intersect. -/
def rectsIntersect (a b : WRect) : Prop :=
  a.lox ≤ b.hix ∧ b.lox ≤ a.hix ∧ a.loy ≤ b.hiy ∧ b.loy ≤ a.hiy

instance (a b : WRect) : Decidable (rectsIntersect a b) := by
  unfold rectsIntersect; infer_instance

/-! Basic lemmas about the generator. -/

theorem next32_fst_lt (p : Pcg32) : (next32 p).1 < 2 ^ 32 := by
  simp only [next32, pcg_output, rotr32]
  exact Nat.mod_lt _ (by norm_num)

theorem gen_range64_fst_lt (fuel : Nat) (p : Pcg32) : (gen_range64 fuel p).1 < 64 := by
  induction fuel generalizing p with
  | zero => simp [gen_range64]
  | succ n ih =>
    simp only [gen_range64]
    split
    · have h := next32_fst_lt p
      simp only [Nat.shiftRight_eq_div_pow]
      exact Nat.div_lt_of_lt_mul (by omega)
    · exact ih _

/-- The candidate loop preserves the collision-freedom invariant: every accepted city's
`pos_key` is recorded in `used`, and accepted cities have pairwise distinct positions. -/
theorem gen_loop_invariant (n : Nat) (r : Pcg32) (used : List Nat) (acc : List City)
    (hkey : ∀ c ∈ acc, c.grid_y * 64 + c.grid_x ∈ used)
    (hpair : acc.Pairwise fun a b => (a.grid_x, a.grid_y) ≠ (b.grid_x, b.grid_y)) :
    (gen_loop n r used acc).1.length ≤ n + acc.length ∧
      (gen_loop n r used acc).1.Pairwise fun a b => (a.grid_x, a.grid_y) ≠ (b.grid_x, b.grid_y) := by
  induction n generalizing r used acc with
  | zero => exact ⟨Nat.le_add_left _ _, hpair⟩
  | succ n ih =>
    simp only [gen_loop]
    split
    · have h := ih (gen_range64 64 (gen_range64 64 r).2).2 used acc hkey hpair
      exact ⟨h.1.trans (by omega), h.2⟩
    · rename_i hnot
      set d1 := gen_range64 64 r
      set d2 := gen_range64 64 d1.2
      set d3 := next32 d2.2
      have hkey' : ∀ c ∈ acc ++ [(⟨d1.1, d2.1, d3.1 &&& 0x3FFFFFFF⟩ : City)],
          c.grid_y * 64 + c.grid_x ∈ (d2.1 * 64 + d1.1) :: used := by
        intro c hc
        rcases List.mem_append.mp hc with h | h
        · exact List.mem_cons_of_mem _ (hkey c h)
        · simp only [List.mem_singleton] at h
          subst h
          exact List.mem_cons_self _ _
      have hpair' : (acc ++ [(⟨d1.1, d2.1, d3.1 &&& 0x3FFFFFFF⟩ : City)]).Pairwise
          fun a b => (a.grid_x, a.grid_y) ≠ (b.grid_x, b.grid_y) := by
        rw [List.pairwise_append]
        refine ⟨hpair, List.pairwise_singleton _ _, ?_⟩
        intro a ha b hb
        simp only [List.mem_singleton] at hb
        subst hb
        intro hEq
        apply hnot
        have hx : a.grid_x = d1.1 := congrArg Prod.fst hEq
        have hy : a.grid_y = d2.1 := congrArg Prod.snd hEq
        have := hkey a ha
        rw [hx, hy] at this
        exact this
      have h := ih d3.2 _ _ hkey' hpair'
      refine ⟨?_, h.2⟩
      calc (gen_loop n d3.2 _ _).1.length ≤ n + (acc ++ [_]).length := h.1
        _ = n + 1 + acc.length := by simp [List.length_append]; omega

/-- Length bound and position-distinctness for the candidate loop run from the initial
state, at an arbitrary iteration count. -/
theorem gen_cities_aux_bound (n : Nat) (r : Pcg32) :
    (gen_cities_aux n r).length ≤ n ∧
      (gen_cities_aux n r).Pairwise
        (fun a b => (a.grid_x, a.grid_y) ≠ (b.grid_x, b.grid_y)) := by
  have h := gen_loop_invariant n r [] [] (by intro c hc; cases hc) List.Pairwise.nil
  have h1 := h.1
  simp only [List.length_nil, Nat.add_zero] at h1
  unfold gen_cities_aux
  exact ⟨h1, h.2⟩

/-- C1 — Chunk generation is deterministic: `generate_chunk` is a pure function of the
world seed and the chunk coordinate; two invocations from caches in different mutable
states (different frame counters) return identical city lists — same length, same
`(grid_x, grid_y, seed)` values, in the same order. -/
theorem chunk_generation_deterministic (world_seed fc₁ fc₂ : Nat) (coord : ChunkCoord) :
    (generate_chunk world_seed fc₁ coord).cities = (generate_chunk world_seed fc₂ coord).cities :=
  rfl

/-- C8 — Collision bound: every generated city list has length ≤ `target_count`,
`target_count = 82` for the default density and chunk size, and no two cities in one
chunk share the same `(grid_x, grid_y)` pair. -/
theorem generated_chunk_collision_bound (world_seed fc : Nat) (coord : ChunkCoord) :
    (generate_chunk world_seed fc coord).cities.length ≤ target_count ∧ target_count = 82 ∧
      (generate_chunk world_seed fc coord).cities.Pairwise
        (fun a b => (a.grid_x, a.grid_y) ≠ (b.grid_x, b.grid_y)) := by
  refine ⟨?_, by decide, ?_⟩
  · show (gen_cities_aux target_count
      (pcg32_seed_from_u64 (chunk_seed world_seed coord))).length ≤ target_count
    exact (gen_cities_aux_bound target_count _).1
  · show (gen_cities_aux target_count
      (pcg32_seed_from_u64 (chunk_seed world_seed coord))).Pairwise
      (fun a b => (a.grid_x, a.grid_y) ≠ (b.grid_x, b.grid_y))
    exact (gen_cities_aux_bound target_count _).2

/-- C9 — Transform inverse law: for every camera with nonzero zoom,
`world_to_screen ∘ screen_to_world` is the identity on screen points (exactly, over
exact arithmetic). -/
theorem transform_inverse (c : Camera) (hz : c.zoom ≠ 0) (sx sy : ℚ) :
    world_to_screen c (screen_to_world c sx sy).1 (screen_to_world c sx sy).2 = (sx, sy) := by
  simp only [world_to_screen, screen_to_world, Prod.mk.injEq]
  constructor <;> (field_simp; ring)

/-- Witness for C9 at a concrete camera and screen point. -/
theorem transform_inverse_witness :
    world_to_screen ⟨3, 7, 20, 800, 600⟩
      (screen_to_world ⟨3, 7, 20, 800, 600⟩ 12 34).1
      (screen_to_world ⟨3, 7, 20, 800, 600⟩ 12 34).2 = (12, 34) :=
  transform_inverse ⟨3, 7, 20, 800, 600⟩ (by norm_num) 12 34

theorem lib_gen_loop_length (n : Nat) (r : Pcg32) (acc : List LibCity) :
    (lib_gen_loop n r acc).1.length = n + acc.length := by
  induction n generalizing r acc with
  | zero => simp [lib_gen_loop]
  | succ n ih =>
    simp only [lib_gen_loop]
    rw [ih]
    simp [List.length_append]
    omega

/-- The `lib.rs` loop produces exactly one city per iteration. -/
theorem lib_cities_aux_length (n : Nat) (r : Pcg32) : (lib_cities_aux n r).length = n := by
  unfold lib_cities_aux
  rw [lib_gen_loop_length]
  simp

/-- C10 — The duplicate exported generator in `src/wasm/src/lib.rs` returns exactly 81
cities for every input: its target count truncates `4096 × fl(0.02) ≈ 81.92` to 81
(instead of rounding to 82 as `chunk.rs` does), and its loop pushes a city on every
iteration with no collision filtering, so the count is always exactly 81. -/
theorem lib_generate_chunk_count (world_seed : Nat) (x y : Int) :
    (generate_chunk_lib world_seed x y).length = 81 ∧ lib_expected_count = 81 ∧
      target_count = 82 := by
  refine ⟨?_, by decide, by decide⟩
  show (lib_cities_aux lib_expected_count
    (pcg32_seed_from_u64 (lib_chunk_seed world_seed x y))).length = 81
  simp only [lib_cities_aux_length]
  decide

set_option maxRecDepth 100000 in
/-- C2 counterexample — at `world_seed = 42`, chunk `(2, 0)`, a position collision
occurs among the 82 candidates (only 81 cities are returned).  The claim says the
colliding candidate's seed draw is still consumed; the loop translated from the source
(`continue` before the seed draw) then diverges from the always-consume loop the claim
describes: the two produce different city lists. -/
theorem seed_draw_consumption_cex :
    (generate_chunk 42 0 ⟨2, 0⟩).cities.length = 81 ∧
      (generate_chunk 42 0 ⟨2, 0⟩).cities ≠
        (gen_loop_claimC2 target_count (pcg32_seed_from_u64 (chunk_seed 42 ⟨2, 0⟩)) [] []).1 := by
  constructor <;> decide

/-- One step of the candidate loop equals one application of `candidate_step`. -/
theorem gen_loop_iterate (n : Nat) (st : GenState) :
    gen_loop n st.rng st.used st.cities
      = ((candidate_step^[n] st).cities, (candidate_step^[n] st).rng) := by
  induction n generalizing st with
  | zero =>
    rw [Function.iterate_zero_apply]
    simp only [gen_loop]
  | succ n ih =>
    rw [Function.iterate_succ_apply]
    have step : gen_loop (n + 1) st.rng st.used st.cities
        = gen_loop n (candidate_step st).rng (candidate_step st).used (candidate_step st).cities := by
      by_cases hmem :
          (gen_range64 64 (gen_range64 64 st.rng).2).1 * 64 + (gen_range64 64 st.rng).1 ∈ st.used
      · simp only [gen_loop, candidate_step, if_pos hmem]
      · simp only [gen_loop, candidate_step, if_neg hmem]
    rw [step, ih (candidate_step st)]

/-- The source candidate loop from the initial state coincides with the amended-claim
loop `gen_amended`. -/
theorem gen_cities_aux_eq_amended (n : Nat) (r : Pcg32) :
    gen_cities_aux n r = (gen_amended n r).cities := by
  have h : gen_loop n r [] []
      = ((candidate_step^[n] (⟨r, [], []⟩ : GenState)).cities,
         (candidate_step^[n] (⟨r, [], []⟩ : GenState)).rng) := gen_loop_iterate n ⟨r, [], []⟩
  unfold gen_cities_aux gen_amended
  rw [h]

/-- The PRNG state after the source candidate loop coincides with the state after the
amended-claim loop — the two consume exactly the same draws. -/
theorem gen_rng_aux_eq_amended (n : Nat) (r : Pcg32) :
    gen_rng_aux n r = (gen_amended n r).rng := by
  have h : gen_loop n r [] []
      = ((candidate_step^[n] (⟨r, [], []⟩ : GenState)).cities,
         (candidate_step^[n] (⟨r, [], []⟩ : GenState)).rng) := gen_loop_iterate n ⟨r, [], []⟩
  unfold gen_rng_aux gen_amended
  rw [h]

/-- C2 (amended) — the generation loop performs exactly `target_count = 82` candidate
iterations; every candidate consumes two integers in [0,64); a colliding candidate is
dropped, not retried, with its two position draws consumed, but its seed draw is
**not** consumed — the 30-bit-masked seed value is drawn only for accepted candidates
(`gen_amended` states exactly this policy, and the source loop realizes it). -/
theorem candidate_draw_policy (world_seed fc : Nat) (coord : ChunkCoord) :
    (generate_chunk world_seed fc coord).cities
      = (gen_amended target_count (pcg32_seed_from_u64 (chunk_seed world_seed coord))).cities ∧
      gen_rng_aux target_count (pcg32_seed_from_u64 (chunk_seed world_seed coord))
        = (gen_amended target_count (pcg32_seed_from_u64 (chunk_seed world_seed coord))).rng ∧
      target_count = 82 := by
  refine ⟨?_, gen_rng_aux_eq_amended target_count _, by decide⟩
  show gen_cities_aux target_count (pcg32_seed_from_u64 (chunk_seed world_seed coord))
    = (gen_amended target_count (pcg32_seed_from_u64 (chunk_seed world_seed coord))).cities
  exact gen_cities_aux_eq_amended target_count _

/-- C6 counterexample — for the 2-waypoint path with arrival times 10 and 20 and an
elapsed time of 5 (strictly before the first arrival), the claim predicts backward
extrapolation through the first segment: fraction `(5 - 10) / (20 - 10) = -1/2`, i.e.
position `(-5, -5)` (not settled).  The code's segment scan requires
`elapsed >= current.arrival_time`, so no segment matches and it falls through to the
final waypoint `(10, 10)` with `settled = true`. -/
theorem before_first_waypoint_cex :
    get_position ⟨1, 0, 1, [⟨0, 0, 10⟩, ⟨10, 10, 20⟩]⟩ 5 = (10, 10, true) ∧
      get_position ⟨1, 0, 1, [⟨0, 0, 10⟩, ⟨10, 10, 20⟩]⟩ 5 ≠ (-5, -5, false) := by
  constructor <;> decide

/-- The segment scan finds nothing when the elapsed time is strictly before the first
arrival time of a sorted waypoint list. -/
theorem find_segment_before_first (l : List Waypoint) (w : Waypoint) (e : ℚ)
    (hchain : (w :: l).Chain' (fun a b => a.arrival_time ≤ b.arrival_time))
    (he : e < w.arrival_time) : find_segment (w :: l) e = none := by
  induction l generalizing w with
  | nil => rfl
  | cons w2 rest ih =>
    have h12 : w.arrival_time ≤ w2.arrival_time := (List.chain'_cons.mp hchain).1
    have hneg : ¬(w.arrival_time ≤ e ∧ e < w2.arrival_time) := by
      intro hc
      exact absurd (lt_of_lt_of_le he hc.1) (lt_irrefl e)
    simp only [find_segment, if_neg hneg]
    exact ih w2 (List.chain'_cons.mp hchain).2 (lt_of_lt_of_le he h12)

/-- C6 (amended) — for a path with at least two waypoints sorted by ascending
`arrival_time` and an elapsed time strictly before the first arrival time, no segment
is selected (the scan requires `elapsed ≥ current.arrival_time`), and the interpolator
returns the **final** waypoint's position with `settled = true`; it does not
extrapolate backward through the first segment. -/
theorem before_first_waypoint_returns_last (p : SalesmanPath) (w1 w2 : Waypoint)
    (rest : List Waypoint) (e : ℚ)
    (hw : p.waypoints = w1 :: w2 :: rest)
    (hchain : (w1 :: w2 :: rest).Chain' (fun a b => a.arrival_time ≤ b.arrival_time))
    (he : e < w1.arrival_time) :
    get_position p e
      = (((w1 :: w2 :: rest).getLast (List.cons_ne_nil _ _)).x,
         ((w1 :: w2 :: rest).getLast (List.cons_ne_nil _ _)).y, true) := by
  unfold get_position
  rw [hw]
  simp only [get_position_list]
  rw [find_segment_before_first (w2 :: rest) w1 e hchain he]

/-- Witness for the amended C6 at a concrete sorted path and elapsed time 0 before the
first arrival time 3: the result is the last waypoint `(4, 5)`, settled. -/
theorem before_first_waypoint_returns_last_witness :
    get_position ⟨7, 0, 1, [⟨1, 2, 3⟩, ⟨4, 5, 6⟩]⟩ 0 = (4, 5, true) := by
  have h := before_first_waypoint_returns_last ⟨7, 0, 1, [⟨1, 2, 3⟩, ⟨4, 5, 6⟩]⟩
    ⟨1, 2, 3⟩ ⟨4, 5, 6⟩ [] 0 rfl
    (List.chain'_cons.mpr ⟨by norm_num, List.chain'_singleton _⟩) (by norm_num)
  rw [h]
  rfl

/-! Association-list lemmas for the cache model. -/

theorem lookupKey_eq_none (k : ChunkCoord) (l : List (ChunkCoord × ChunkData)) :
    lookupKey k l = none ↔ k ∉ l.map Prod.fst := by
  induction l with
  | nil => simp [lookupKey]
  | cons p rest ih =>
    simp only [lookupKey, List.map_cons, List.mem_cons]
    by_cases h : p.1 = k
    · simp [h]
    · simp only [if_neg h, ih]
      constructor
      · intro hn hk
        rcases hk with hk | hk
        · exact h hk.symm
        · exact hn hk
      · intro hn hk
        exact hn (Or.inr hk)

theorem map_fst_stampKey (k : ChunkCoord) (fc : Nat) (l : List (ChunkCoord × ChunkData)) :
    (stampKey k fc l).map Prod.fst = l.map Prod.fst := by
  induction l with
  | nil => rfl
  | cons p rest ih =>
    simp only [stampKey, List.map_cons] at *
    by_cases h : p.1 = k
    · simp [h, ih]
    · simp [h, ih]

theorem length_stampKey (k : ChunkCoord) (fc : Nat) (l : List (ChunkCoord × ChunkData)) :
    (stampKey k fc l).length = l.length := List.length_map _ _

theorem removeKey_sublist (k : ChunkCoord) (l : List (ChunkCoord × ChunkData)) :
    (removeKey k l).Sublist l := by
  induction l with
  | nil => simp [removeKey]
  | cons p rest ih =>
    simp only [removeKey]
    by_cases h : p.1 = k
    · simp only [if_pos h]
      exact List.sublist_cons_self p rest
    · simp only [if_neg h]
      exact ih.cons₂ p

theorem map_fst_removeKey (k : ChunkCoord) (l : List (ChunkCoord × ChunkData)) :
    (removeKey k l).map Prod.fst = (l.map Prod.fst).erase k := by
  induction l with
  | nil => rfl
  | cons p rest ih =>
    simp only [removeKey, List.map_cons]
    by_cases h : p.1 = k
    · simp [if_pos h, List.erase_cons, h]
    · simp only [if_neg h, List.map_cons, List.erase_cons, ih]
      rw [if_neg (by simpa using h)]

theorem length_removeKey_of_mem (k : ChunkCoord) (l : List (ChunkCoord × ChunkData))
    (hk : k ∈ l.map Prod.fst) : (removeKey k l).length = l.length - 1 := by
  have h := congrArg List.length (map_fst_removeKey k l)
  simpa [List.length_erase_of_mem hk] using h

theorem mem_removeKey_of_ne (k : ChunkCoord) (l : List (ChunkCoord × ChunkData))
    (p : ChunkCoord × ChunkData) (hp : p ∈ l) (hne : p.1 ≠ k) : p ∈ removeKey k l := by
  induction l with
  | nil => cases hp
  | cons q rest ih =>
    simp only [removeKey]
    rcases List.mem_cons.mp hp with h | h
    · subst h
      rw [if_neg hne]
      exact List.mem_cons_self _ _
    · by_cases hq : q.1 = k
      · rw [if_pos hq]; exact h
      · rw [if_neg hq]; exact List.mem_cons_of_mem _ (ih h)

theorem ne_key_of_mem_removeKey (k : ChunkCoord) (l : List (ChunkCoord × ChunkData))
    (hnd : (l.map Prod.fst).Nodup) (p : ChunkCoord × ChunkData)
    (hp : p ∈ removeKey k l) : p.1 ≠ k := by
  induction l with
  | nil => cases hp
  | cons q rest ih =>
    simp only [removeKey] at hp
    simp only [List.map_cons, List.nodup_cons] at hnd
    by_cases hq : q.1 = k
    · rw [if_pos hq] at hp
      intro hpk
      exact hnd.1 (hq ▸ hpk ▸ List.mem_map_of_mem Prod.fst hp)
    · rw [if_neg hq] at hp
      rcases List.mem_cons.mp hp with h | h
      · subst h; exact hq
      · exact ih hnd.2 h

theorem mem_removeKey_iff (k : ChunkCoord) (l : List (ChunkCoord × ChunkData))
    (hnd : (l.map Prod.fst).Nodup) (p : ChunkCoord × ChunkData) :
    p ∈ removeKey k l ↔ p ∈ l ∧ p.1 ≠ k :=
  ⟨fun h => ⟨(removeKey_sublist k l).subset h, ne_key_of_mem_removeKey k l hnd p h⟩,
   fun h => mem_removeKey_of_ne k l p h.1 h.2⟩

theorem fold_removeKey_sublist (ks : List (ChunkCoord × Nat))
    (l : List (ChunkCoord × ChunkData)) :
    (ks.foldl (fun m e => removeKey e.1 m) l).Sublist l := by
  induction ks generalizing l with
  | nil => exact List.Sublist.refl l
  | cons e ks ih =>
    simp only [List.foldl_cons]
    exact (ih (removeKey e.1 l)).trans (removeKey_sublist e.1 l)

theorem nodup_keys_fold_removeKey (ks : List (ChunkCoord × Nat))
    (l : List (ChunkCoord × ChunkData)) (hnd : (l.map Prod.fst).Nodup) :
    ((ks.foldl (fun m e => removeKey e.1 m) l).map Prod.fst).Nodup :=
  hnd.sublist ((fold_removeKey_sublist ks l).map Prod.fst)

theorem length_fold_removeKey (ks : List (ChunkCoord × Nat))
    (l : List (ChunkCoord × ChunkData)) (hnd : (l.map Prod.fst).Nodup)
    (hks : (ks.map Prod.fst).Nodup) (hsub : ∀ e ∈ ks, e.1 ∈ l.map Prod.fst) :
    (ks.foldl (fun m e => removeKey e.1 m) l).length = l.length - ks.length := by
  induction ks generalizing l with
  | nil => simp
  | cons e ks ih =>
    simp only [List.foldl_cons, List.length_cons]
    have hmem : e.1 ∈ l.map Prod.fst := hsub e (List.mem_cons_self _ _)
    simp only [List.map_cons, List.nodup_cons] at hks
    have hkeys : (removeKey e.1 l).map Prod.fst = (l.map Prod.fst).erase e.1 :=
      map_fst_removeKey e.1 l
    have hnd' : ((removeKey e.1 l).map Prod.fst).Nodup := by
      rw [hkeys]; exact hnd.erase _
    have hsub' : ∀ f ∈ ks, f.1 ∈ (removeKey e.1 l).map Prod.fst := by
      intro f hf
      rw [hkeys]
      refine List.mem_erase_of_ne ?_ |>.mpr (hsub f (List.mem_cons_of_mem _ hf))
      intro hEq
      exact hks.1 (hEq ▸ List.mem_map_of_mem Prod.fst hf)
    rw [ih (removeKey e.1 l) hnd' hks.2 hsub', length_removeKey_of_mem e.1 l hmem]
    omega

theorem mem_fold_removeKey (ks : List (ChunkCoord × Nat))
    (l : List (ChunkCoord × ChunkData)) (hnd : (l.map Prod.fst).Nodup)
    (p : ChunkCoord × ChunkData) :
    p ∈ ks.foldl (fun m e => removeKey e.1 m) l ↔ p ∈ l ∧ p.1 ∉ ks.map Prod.fst := by
  induction ks generalizing l with
  | nil => simp
  | cons e ks ih =>
    simp only [List.foldl_cons, List.map_cons, List.mem_cons]
    have hnd' : ((removeKey e.1 l).map Prod.fst).Nodup := by
      rw [map_fst_removeKey]; exact hnd.erase _
    rw [ih (removeKey e.1 l) hnd', mem_removeKey_iff e.1 l hnd]
    constructor
    · rintro ⟨⟨hpl, hpe⟩, hpks⟩
      exact ⟨hpl, fun h => h.elim hpe hpks⟩
    · rintro ⟨hpl, hor⟩
      exact ⟨⟨hpl, fun h => hor (Or.inl h)⟩, fun h => hor (Or.inr h)⟩

/-! Sorting lemmas for `sortByLU`. -/

theorem sortByLU_perm (l : List (ChunkCoord × Nat)) : (sortByLU l).Perm l :=
  List.perm_insertionSort _ l

theorem sortByLU_sorted (l : List (ChunkCoord × Nat)) :
    (sortByLU l).Sorted fun a b => a.2 ≤ b.2 :=
  List.sorted_insertionSort _ l

/-- The snapshot keys are the cache keys. -/
theorem map_fst_snapshot (c : ChunkCache) :
    (snapshot c).map Prod.fst = c.cache.map Prod.fst := by
  simp [snapshot, List.map_map, Function.comp]

/-- Eviction keeps exactly `min len 100` entries (for a valid iteration order and a
well-formed cache). -/
theorem evict_count (o : CacheOrder) (c : ChunkCache) (ho : (o c).Perm (snapshot c))
    (hnd : (c.cache.map Prod.fst).Nodup) :
    (evict_if_needed o c).cache.length = min c.cache.length MAX_CACHED_CHUNKS := by
  unfold evict_if_needed
  by_cases hle : c.cache.length ≤ MAX_CACHED_CHUNKS
  · rw [if_pos hle]
    exact (Nat.min_eq_left hle).symm
  · rw [if_neg hle]
    push_neg at hle
    have hlen_o : (o c).length = c.cache.length := by
      rw [ho.length_eq]
      simp [snapshot]
    have hlen_sort : (sortByLU (o c)).length = c.cache.length := by
      rw [(sortByLU_perm (o c)).length_eq, hlen_o]
    have hkeys_perm : ((sortByLU (o c)).map Prod.fst).Perm (c.cache.map Prod.fst) := by
      have h1 := ((sortByLU_perm (o c)).trans ho).map Prod.fst
      rwa [map_fst_snapshot] at h1
    have hkeys_nodup : ((sortByLU (o c)).map Prod.fst).Nodup := hkeys_perm.nodup_iff.mpr hnd
    have htake_len : (evicted_entries o c).length = c.cache.length - MAX_CACHED_CHUNKS := by
      unfold evicted_entries
      rw [List.length_take, hlen_sort]
      omega
    have htake_nodup : ((evicted_entries o c).map Prod.fst).Nodup :=
      hkeys_nodup.sublist ((List.take_sublist _ _).map Prod.fst)
    have htake_sub : ∀ e ∈ evicted_entries o c, e.1 ∈ c.cache.map Prod.fst := by
      intro e he
      have h1 : e ∈ sortByLU (o c) := (List.take_sublist _ _).subset he
      have h2 : e ∈ snapshot c := ((sortByLU_perm (o c)).trans ho).subset h1
      have h3 := List.mem_map_of_mem Prod.fst h2
      rwa [map_fst_snapshot] at h3
    rw [length_fold_removeKey _ _ hnd htake_nodup htake_sub, htake_len]
    omega

/-- Eviction preserves key-uniqueness. -/
theorem evict_nodup (o : CacheOrder) (c : ChunkCache)
    (hnd : (c.cache.map Prod.fst).Nodup) :
    ((evict_if_needed o c).cache.map Prod.fst).Nodup := by
  unfold evict_if_needed
  by_cases hle : c.cache.length ≤ MAX_CACHED_CHUNKS
  · rwa [if_pos hle]
  · rw [if_neg hle]
    exact nodup_keys_fold_removeKey _ _ hnd

/-- Entries surviving eviction are entries of the original cache whose key was not
among the evicted keys. -/
theorem mem_evict (o : CacheOrder) (c : ChunkCache)
    (hnd : (c.cache.map Prod.fst).Nodup) (p : ChunkCoord × ChunkData)
    (hp : p ∈ (evict_if_needed o c).cache) :
    p ∈ c.cache ∧ p.1 ∉ (evicted_entries o c).map Prod.fst ∨
      c.cache.length ≤ MAX_CACHED_CHUNKS := by
  unfold evict_if_needed at hp
  by_cases hle : c.cache.length ≤ MAX_CACHED_CHUNKS
  · exact Or.inr hle
  · rw [if_neg hle] at hp
    exact Or.inl ((mem_fold_removeKey _ _ hnd p).mp hp)

/-- C5 (amended) — when insertion pushes the cache beyond capacity, eviction removes
entries until exactly `MAX_CACHED_CHUNKS` remain, and every evicted entry's
`last_used` is ≤ every retained entry's `last_used` (the evicted entries are a
minimal-`last_used` prefix of the stable sort).  Ties, however, are broken by the
`HashMap`'s unspecified iteration order — modelled by the order oracle — which is not
deterministic: the counterexample exhibits two valid orders for the same cache state
that evict different entries, and in the all-tied case the evicted entry can be the
just-accessed one. -/
theorem eviction_removes_minimal (o : CacheOrder) (c : ChunkCache)
    (ho : (o c).Perm (snapshot c)) (hnd : (c.cache.map Prod.fst).Nodup) :
    (evict_if_needed o c).cache.length = min c.cache.length MAX_CACHED_CHUNKS ∧
      ∀ q ∈ evicted_entries o c, ∀ p ∈ (evict_if_needed o c).cache,
        q.2 ≤ p.2.last_used := by
  refine ⟨evict_count o c ho hnd, ?_⟩
  intro q hq p hp
  by_cases hle : c.cache.length ≤ MAX_CACHED_CHUNKS
  · exfalso
    have : (evicted_entries o c).length = 0 := by
      unfold evicted_entries
      rw [List.length_take]
      omega
    rw [List.length_eq_zero] at this
    rw [this] at hq
    cases hq
  · rcases mem_evict o c hnd p hp with ⟨hpc, hpkeys⟩ | h
    · have hsp : (p.1, p.2.last_used) ∈ snapshot c := by
        exact List.mem_map_of_mem (fun r => (r.1, r.2.last_used)) hpc
      have hsp' : (p.1, p.2.last_used) ∈ sortByLU (o c) :=
        ((sortByLU_perm (o c)).trans ho).mem_iff.mpr hsp
      set m := c.cache.length - MAX_CACHED_CHUNKS with hm
      have hsplit := List.take_append_drop m (sortByLU (o c))
      have hdrop : (p.1, p.2.last_used) ∈ (sortByLU (o c)).drop m := by
        rcases (List.mem_append.mp (by rw [hsplit]; exact hsp')) with h | h
        · exfalso
          exact hpkeys (List.mem_map_of_mem Prod.fst h)
        · exact h
      have hsorted := sortByLU_sorted (o c)
      rw [← hsplit] at hsorted
      have hrel := (List.pairwise_append.mp hsorted).2.2
      exact hrel q hq (p.1, p.2.last_used) hdrop
    · omega

/-- The identity iteration-order oracle (snapshot in the model's list order). -/
theorem snapshot_order_valid : ValidOrder fun c => snapshot c := fun _ => List.Perm.refl _

theorem frontOrder_valid (k : ChunkCoord) : ValidOrder (frontOrder k) := fun _ =>
  List.filter_append_perm _ _

/-- Witness for the amended C5 at a concrete over-capacity cache with the identity
iteration order: eviction brings it to exactly 100 entries. -/
theorem eviction_removes_minimal_witness :
    (evict_if_needed (fun c => snapshot c) cex_cache_101).cache.length = 100 := by
  have h := (eviction_removes_minimal (fun c => snapshot c) cex_cache_101
    (List.Perm.refl _) (by decide)).1
  rw [h]
  decide

set_option maxRecDepth 100000 in
/-- C5 counterexample — tie-breaking is **not** deterministic: starting from
`cex_cache_100` (at capacity, all timestamps tied at 0), access the existing entry
`(0,0)` (a hit: its stamp rewrites `last_used` to the unchanged frame counter 0), then
insert the new chunk `(200,7)`.  Under the valid iteration order that yields `(0,0)`
first, eviction removes `(0,0)` — the just-accessed entry; under the valid identity
order it removes a different entry and `(0,0)` survives.  This falsifies both the
deterministic tie-break and the claim's "never the just-accessed one". -/
theorem lru_tie_break_cex :
    ValidOrder (frontOrder ⟨0, 0⟩) ∧
      lookupKey ⟨0, 0⟩
        (get_or_generate (frontOrder ⟨0, 0⟩)
          (get_or_generate (frontOrder ⟨0, 0⟩) cex_cache_100 ⟨0, 0⟩).2 ⟨200, 7⟩).2.cache
        = none ∧
      lookupKey ⟨0, 0⟩
        (get_or_generate (fun c => snapshot c)
          (get_or_generate (fun c => snapshot c) cex_cache_100 ⟨0, 0⟩).2 ⟨200, 7⟩).2.cache
        ≠ none :=
  ⟨frontOrder_valid _, by decide, by decide⟩

/-! Step lemmas for `get_or_generate` and request sequences. -/

theorem get_or_generate_hit (o : CacheOrder) (c : ChunkCache) (k : ChunkCoord)
    (hmem : k ∈ c.cache.map Prod.fst) :
    (get_or_generate o c k).2.cache = stampKey k c.frame_counter c.cache := by
  have hne : ¬(lookupKey k c.cache).isNone = true := by
    intro h
    exact (lookupKey_eq_none k c.cache).mp (Option.isNone_iff_eq_none.mp h) hmem
  simp only [get_or_generate, if_neg hne]

theorem evict_frame_counter (o : CacheOrder) (c : ChunkCache) :
    (evict_if_needed o c).frame_counter = c.frame_counter := by
  unfold evict_if_needed
  split <;> rfl

theorem get_or_generate_miss (o : CacheOrder) (c : ChunkCache) (k : ChunkCoord)
    (hmem : k ∉ c.cache.map Prod.fst) :
    (get_or_generate o c k).2.cache
      = stampKey k c.frame_counter
          (evict_if_needed o
            { c with cache :=
                (k, generate_chunk c.world_seed c.frame_counter k) :: c.cache }).cache := by
  have hno : (lookupKey k c.cache).isNone = true :=
    Option.isNone_iff_eq_none.mpr ((lookupKey_eq_none k c.cache).mpr hmem)
  simp only [get_or_generate, if_pos hno]
  rw [evict_frame_counter]

/-- A miss that leaves the cache at or below capacity simply conses the new key. -/
theorem get_or_generate_miss_small (o : CacheOrder) (c : ChunkCache) (k : ChunkCoord)
    (hmem : k ∉ c.cache.map Prod.fst) (hsmall : c.cache.length + 1 ≤ MAX_CACHED_CHUNKS) :
    (get_or_generate o c k).2.cache.map Prod.fst = k :: c.cache.map Prod.fst := by
  rw [get_or_generate_miss o c k hmem, map_fst_stampKey]
  have hnoev :
      (evict_if_needed o
        { c with cache :=
            (k, generate_chunk c.world_seed c.frame_counter k) :: c.cache }).cache
      = (k, generate_chunk c.world_seed c.frame_counter k) :: c.cache := by
    unfold evict_if_needed
    rw [if_pos (by simpa using hsmall)]
  rw [hnoev]
  rfl

theorem get_or_generate_nodup (o : CacheOrder) (c : ChunkCache)
    (k : ChunkCoord) (hnd : (c.cache.map Prod.fst).Nodup) :
    ((get_or_generate o c k).2.cache.map Prod.fst).Nodup := by
  by_cases hmem : k ∈ c.cache.map Prod.fst
  · rw [get_or_generate_hit o c k hmem, map_fst_stampKey]
    exact hnd
  · rw [get_or_generate_miss o c k hmem, map_fst_stampKey]
    exact evict_nodup o _ (by rw [List.map_cons]; exact List.nodup_cons.mpr ⟨hmem, hnd⟩)

theorem get_or_generate_length (o : CacheOrder) (ho : ValidOrder o) (c : ChunkCache)
    (k : ChunkCoord) (hnd : (c.cache.map Prod.fst).Nodup) :
    (get_or_generate o c k).2.cache.length
      = if k ∈ c.cache.map Prod.fst then c.cache.length
        else min (c.cache.length + 1) MAX_CACHED_CHUNKS := by
  by_cases hmem : k ∈ c.cache.map Prod.fst
  · rw [if_pos hmem, get_or_generate_hit o c k hmem, length_stampKey]
  · rw [if_neg hmem, get_or_generate_miss o c k hmem, length_stampKey]
    have h := evict_count o
      { c with cache := (k, generate_chunk c.world_seed c.frame_counter k) :: c.cache }
      (ho _) (by rw [List.map_cons]; exact List.nodup_cons.mpr ⟨hmem, hnd⟩)
    simpa using h

theorem run_requests_append (o : CacheOrder) (c : ChunkCache)
    (l1 l2 : List ChunkCoord) :
    run_requests o c (l1 ++ l2) = run_requests o (run_requests o c l1) l2 := by
  induction l1 generalizing c with
  | nil => rfl
  | cons k ks ih =>
    simp only [List.cons_append, run_requests]
    exact ih _

theorem run_requests_bound (o : CacheOrder) (ho : ValidOrder o) (coords : List ChunkCoord)
    (c : ChunkCache) (hnd : (c.cache.map Prod.fst).Nodup)
    (hle : c.cache.length ≤ MAX_CACHED_CHUNKS) :
    ((run_requests o c coords).cache.map Prod.fst).Nodup ∧
      (run_requests o c coords).cache.length ≤ MAX_CACHED_CHUNKS := by
  induction coords generalizing c with
  | nil => exact ⟨hnd, hle⟩
  | cons k ks ih =>
    simp only [run_requests]
    refine ih _ (get_or_generate_nodup o c k hnd) ?_
    rw [get_or_generate_length o ho c k hnd]
    by_cases hmem : k ∈ c.cache.map Prod.fst
    · rw [if_pos hmem]; exact hle
    · rw [if_neg hmem]; omega

/-- Running distinct fresh requests while under capacity records exactly the requested
keys (in reverse insertion order). -/
theorem run_requests_fresh_keys (o : CacheOrder) (coords : List ChunkCoord)
    (c : ChunkCache) (hdisj : ∀ k ∈ coords, k ∉ c.cache.map Prod.fst)
    (hnodup : coords.Nodup) (hlen : c.cache.length + coords.length ≤ MAX_CACHED_CHUNKS) :
    (run_requests o c coords).cache.map Prod.fst = coords.reverse ++ c.cache.map Prod.fst := by
  induction coords generalizing c with
  | nil => simp [run_requests]
  | cons k ks ih =>
    simp only [run_requests, List.reverse_cons, List.append_assoc, List.singleton_append]
    have hmem : k ∉ c.cache.map Prod.fst := hdisj k (List.mem_cons_self _ _)
    have hkeys := get_or_generate_miss_small o c k hmem
      (by simp only [List.length_cons] at hlen; omega)
    have hdisj' : ∀ k' ∈ ks, k' ∉ (get_or_generate o c k).2.cache.map Prod.fst := by
      intro k' hk'
      rw [hkeys]
      intro hk
      rcases List.mem_cons.mp hk with h | h
      · exact (List.nodup_cons.mp hnodup).1 (h ▸ hk')
      · exact hdisj k' (List.mem_cons_of_mem _ hk') h
    have hlen' : (get_or_generate o c k).2.cache.length + ks.length ≤ MAX_CACHED_CHUNKS := by
      have := congrArg List.length hkeys
      simp only [List.length_map, List.length_cons] at this
      simp only [List.length_cons] at hlen
      omega
    rw [ih _ hdisj' (List.nodup_cons.mp hnodup).2 hlen', hkeys]

/-- C4 — cache bound: after any sequence of `get_or_generate` calls on a fresh cache
(under any valid `HashMap` iteration order), `cached_count ≤ MAX_CACHED_CHUNKS = 100`;
and requesting 101 distinct chunk coordinates sequentially on a fresh cache leaves
exactly 100 entries cached afterward. -/
theorem cache_bound (o : CacheOrder) (ho : ValidOrder o) (seed : Nat)
    (coords : List ChunkCoord) :
    cached_count (run_requests o (ChunkCache.new seed) coords) ≤ MAX_CACHED_CHUNKS ∧
      (coords.Nodup → coords.length = 101 →
        cached_count (run_requests o (ChunkCache.new seed) coords) = MAX_CACHED_CHUNKS) := by
  constructor
  · show (run_requests o (ChunkCache.new seed) coords).cache.length ≤ MAX_CACHED_CHUNKS
    exact (run_requests_bound o ho coords (ChunkCache.new seed) (by simp [ChunkCache.new])
      (by simp [ChunkCache.new, MAX_CACHED_CHUNKS])).2
  · intro hnodup hlen
    show (run_requests o (ChunkCache.new seed) coords).cache.length = MAX_CACHED_CHUNKS
    obtain ⟨l1, l2, hsplit, hl1, hl2⟩ :
        ∃ l1 l2, coords = l1 ++ l2 ∧ l1.length = 100 ∧ l2.length = 1 :=
      ⟨coords.take 100, coords.drop 100, (List.take_append_drop 100 coords).symm,
        by rw [List.length_take]; omega, by rw [List.length_drop]; omega⟩
    obtain ⟨k, hk⟩ := List.length_eq_one.mp hl2
    subst hsplit
    rw [run_requests_append]
    set c100 := run_requests o (ChunkCache.new seed) l1 with hc100
    have hnodup1 : l1.Nodup := (List.nodup_append.mp hnodup).1
    have hkeys : c100.cache.map Prod.fst = l1.reverse ++ [] := by
      rw [hc100]
      exact run_requests_fresh_keys o l1 (ChunkCache.new seed)
        (by intro k' _ h; simp [ChunkCache.new] at h) hnodup1
        (by simp [ChunkCache.new, MAX_CACHED_CHUNKS]; omega)
    have hnd100 : (c100.cache.map Prod.fst).Nodup := by
      rw [hkeys]
      simpa using hnodup1
    have hlen100 : c100.cache.length = 100 := by
      have := congrArg List.length hkeys
      simp only [List.length_map, List.length_append, List.length_reverse,
        List.length_nil] at this
      omega
    have hkmem : k ∉ c100.cache.map Prod.fst := by
      rw [hkeys]
      simp only [List.append_nil, List.mem_reverse]
      intro hmem
      have hdisj := (List.nodup_append.mp hnodup).2.2
      exact hdisj hmem (by rw [hk]; exact List.mem_cons_self _ _)
    rw [hk]
    show (run_requests o c100 [k]).cache.length = MAX_CACHED_CHUNKS
    have : run_requests o c100 [k] = (get_or_generate o c100 k).2 := rfl
    rw [this, get_or_generate_length o ho c100 k hnd100, if_neg hkmem, hlen100]
    decide

/-- Witness for C4: 101 distinct requests on a fresh cache under the identity
iteration order leave exactly 100 chunks cached. -/
theorem cache_bound_witness :
    cached_count (run_requests (fun c => snapshot c) (ChunkCache.new 42) coords101)
      = MAX_CACHED_CHUNKS :=
  (cache_bound _ snapshot_order_valid 42 coords101).2 (by decide) (by decide)

set_option maxRecDepth 400000 in
/-- C3 — the `.unwrap()` in `get_or_generate` can fail: request the 100 distinct
chunks `(0,0) … (99,0)` on a fresh cache (all stamped with frame counter 0), then
request the new chunk `(100,0)` under the valid `HashMap` iteration order that yields
`(100,0)` first.  All 101 entries tie on `last_used = 0`, the stable sort keeps the
oracle's order, and eviction removes the just-inserted chunk — the subsequent
`self.cache.get(&coord)` returns `None` (modelling the `.unwrap()` panic), violating
the lookup-never-fails contract the claim (and the code's own `unwrap`) assumes. -/
theorem just_inserted_lookup_panics :
    ValidOrder (frontOrder ⟨100, 0⟩) ∧
      (get_or_generate (frontOrder ⟨100, 0⟩)
          (run_requests (frontOrder ⟨100, 0⟩) (ChunkCache.new 42) (coords101.take 100))
          ⟨100, 0⟩).1 = none :=
  ⟨frontOrder_valid _, by decide⟩

/-! Visibility-resolver lemmas (C7). -/

theorem mem_intRange (lo hi z : Int) : z ∈ intRange lo hi ↔ lo ≤ z ∧ z ≤ hi := by
  unfold intRange
  constructor
  · intro hz
    obtain ⟨i, hi', hEq⟩ := List.mem_map.mp hz
    rw [List.mem_range] at hi'
    omega
  · intro h
    refine List.mem_map.mpr ⟨(z - lo).toNat, ?_, ?_⟩
    · rw [List.mem_range]
      omega
    · omega

theorem i32sat_eq (z : Int) (h1 : -(2 ^ 31) ≤ z) (h2 : z ≤ 2 ^ 31 - 1) : i32sat z = z := by
  unfold i32sat
  omega

theorem mem_get_visible_chunks (camera_x camera_y zoom vw vh : ℚ) (c : ChunkCoord) :
    c ∈ get_visible_chunks camera_x camera_y zoom vw vh ↔
      i32sat ⌊camera_x / 64⌋ ≤ c.x ∧ c.x ≤ i32sat ⌈(camera_x + vw / zoom) / 64⌉ ∧
        i32sat ⌊camera_y / 64⌋ ≤ c.y ∧ c.y ≤ i32sat ⌈(camera_y + vh / zoom) / 64⌉ := by
  simp only [get_visible_chunks, List.mem_flatMap, List.mem_map, mem_intRange]
  constructor
  · rintro ⟨a, ⟨ha1, ha2⟩, b, ⟨hb1, hb2⟩, rfl⟩
    exact ⟨ha1, ha2, hb1, hb2⟩
  · rintro ⟨h1, h2, h3, h4⟩
    exact ⟨c.x, ⟨h1, h2⟩, c.y, ⟨h3, h4⟩, rfl⟩

set_option maxHeartbeats 800000 in
/-- C7 (amended) — the returned chunk set fully covers the viewport's world rectangle
`[x, x + w/zoom] × [y, y + h/zoom]` (every world point of it lies in the 64×64
rectangle of a returned coordinate), and every returned coordinate's chunk rectangle
intersects the viewport rectangle **enlarged by one chunk size (64 world units) on the
right and bottom edges** — because the high edge is computed with `ceil`, the last
row/column may lie up to one full chunk beyond the viewport, so the unenlarged
no-extraneous-chunk property of the original claim fails (see the counterexample).
Stated for cameras whose chunk bounds avoid the saturating `f64 → i32` cast. -/
theorem visible_chunks_cover (camera_x camera_y zoom vw vh px py : ℚ) (c : ChunkCoord)
    (hz : 0 < zoom) (hw : 0 ≤ vw) (hh : 0 ≤ vh)
    (hlox : -(2 ^ 31) ≤ ⌊camera_x / 64⌋)
    (hhix : ⌈(camera_x + vw / zoom) / 64⌉ ≤ 2 ^ 31 - 1)
    (hloy : -(2 ^ 31) ≤ ⌊camera_y / 64⌋)
    (hhiy : ⌈(camera_y + vh / zoom) / 64⌉ ≤ 2 ^ 31 - 1) :
    (camera_x ≤ px → px ≤ camera_x + vw / zoom →
      camera_y ≤ py → py ≤ camera_y + vh / zoom →
      ChunkCoord.mk ⌊px / 64⌋ ⌊py / 64⌋ ∈ get_visible_chunks camera_x camera_y zoom vw vh) ∧
    (c ∈ get_visible_chunks camera_x camera_y zoom vw vh →
      rectsIntersect (chunkRect c)
        ⟨camera_x, camera_y, camera_x + vw / zoom + 64, camera_y + vh / zoom + 64⟩) := by
  have hLRx : camera_x ≤ camera_x + vw / zoom := by
    have : (0 : ℚ) ≤ vw / zoom := div_nonneg hw hz.le
    linarith
  have hLRy : camera_y ≤ camera_y + vh / zoom := by
    have : (0 : ℚ) ≤ vh / zoom := div_nonneg hh hz.le
    linarith
  have hfcx : ⌊camera_x / 64⌋ ≤ ⌈(camera_x + vw / zoom) / 64⌉ :=
    le_trans (Int.floor_le_floor (by
      exact (div_le_div_iff_of_pos_right (by norm_num)).mpr hLRx)) (Int.floor_le_ceil _)
  have hfcy : ⌊camera_y / 64⌋ ≤ ⌈(camera_y + vh / zoom) / 64⌉ :=
    le_trans (Int.floor_le_floor (by
      exact (div_le_div_iff_of_pos_right (by norm_num)).mpr hLRy)) (Int.floor_le_ceil _)
  have slox : i32sat ⌊camera_x / 64⌋ = ⌊camera_x / 64⌋ := i32sat_eq _ hlox (by omega)
  have shix : i32sat ⌈(camera_x + vw / zoom) / 64⌉ = ⌈(camera_x + vw / zoom) / 64⌉ :=
    i32sat_eq _ (by omega) hhix
  have sloy : i32sat ⌊camera_y / 64⌋ = ⌊camera_y / 64⌋ := i32sat_eq _ hloy (by omega)
  have shiy : i32sat ⌈(camera_y + vh / zoom) / 64⌉ = ⌈(camera_y + vh / zoom) / 64⌉ :=
    i32sat_eq _ (by omega) hhiy
  constructor
  · intro hpx1 hpx2 hpy1 hpy2
    rw [mem_get_visible_chunks, slox, shix, sloy, shiy]
    refine ⟨?_, ?_, ?_, ?_⟩
    · exact Int.floor_le_floor ((div_le_div_iff_of_pos_right (by norm_num)).mpr hpx1)
    · exact le_trans
        (Int.floor_le_floor ((div_le_div_iff_of_pos_right (by norm_num)).mpr hpx2))
        (Int.floor_le_ceil _)
    · exact Int.floor_le_floor ((div_le_div_iff_of_pos_right (by norm_num)).mpr hpy1)
    · exact le_trans
        (Int.floor_le_floor ((div_le_div_iff_of_pos_right (by norm_num)).mpr hpy2))
        (Int.floor_le_ceil _)
  · intro hmem
    rw [mem_get_visible_chunks, slox, shix, sloy, shiy] at hmem
    obtain ⟨h1, h2, h3, h4⟩ := hmem
    have c1x : (camera_x / 64 - 1 : ℚ) < (c.x : ℚ) := by
      have := Int.sub_one_lt_floor (camera_x / 64)
      have hc : ((⌊camera_x / 64⌋ : Int) : ℚ) ≤ (c.x : ℚ) := Int.cast_le.mpr h1
      linarith
    have c2x : ((c.x : ℚ)) < (camera_x + vw / zoom) / 64 + 1 := by
      have := Int.ceil_lt_add_one ((camera_x + vw / zoom) / 64)
      have hc : ((c.x : Int) : ℚ) ≤ ((⌈(camera_x + vw / zoom) / 64⌉ : Int) : ℚ) :=
        Int.cast_le.mpr h2
      linarith
    have c1y : (camera_y / 64 - 1 : ℚ) < (c.y : ℚ) := by
      have := Int.sub_one_lt_floor (camera_y / 64)
      have hc : ((⌊camera_y / 64⌋ : Int) : ℚ) ≤ (c.y : ℚ) := Int.cast_le.mpr h3
      linarith
    have c2y : ((c.y : ℚ)) < (camera_y + vh / zoom) / 64 + 1 := by
      have := Int.ceil_lt_add_one ((camera_y + vh / zoom) / 64)
      have hc : ((c.y : Int) : ℚ) ≤ ((⌈(camera_y + vh / zoom) / 64⌉ : Int) : ℚ) :=
        Int.cast_le.mpr h4
      linarith
    refine ⟨?_, ?_, ?_, ?_⟩ <;> show _ ≤ _
    · show (64 : ℚ) * c.x ≤ camera_x + vw / zoom + 64
      nlinarith [c2x]
    · show camera_x ≤ 64 * (c.x : ℚ) + 64
      nlinarith [c1x]
    · show (64 : ℚ) * c.y ≤ camera_y + vh / zoom + 64
      nlinarith [c2y]
    · show camera_y ≤ 64 * (c.y : ℚ) + 64
      nlinarith [c1y]

/-- C7 counterexample — camera at the origin, zoom 10 (within bounds), 100×100
viewport: the world rectangle is `[0,10] × [0,10]`, yet the resolver returns the
coordinate `(1,1)` whose chunk rectangle `[64,128] × [64,128]` does not intersect the
viewport rectangle — the `ceil` on the high edge over-covers by one row and column. -/
theorem visible_chunks_cex :
    ChunkCoord.mk 1 1 ∈ get_visible_chunks 0 0 10 100 100 ∧
      ¬ rectsIntersect (chunkRect ⟨1, 1⟩) ⟨0, 0, 0 + 100 / 10, 0 + 100 / 10⟩ := by
  have hfl : (⌊(0 : ℚ) / 64⌋ : Int) = 0 := by norm_num
  have hce : (⌈((0 : ℚ) + 100 / 10) / 64⌉ : Int) = 1 := by
    rw [show ((0 : ℚ) + 100 / 10) / 64 = 5 / 32 by norm_num, Int.ceil_eq_iff]
    norm_num
  constructor
  · rw [mem_get_visible_chunks, hfl, hce]
    unfold i32sat
    norm_num
  · intro hco
    simp only [rectsIntersect, chunkRect] at hco
    norm_num at hco

/-- Witness for the amended C7 at a concrete camera: the chunk containing the interior
point `(5,5)` is returned, and the extraneous coordinate `(1,1)` at least intersects
the one-chunk-enlarged viewport rectangle. -/
theorem visible_chunks_cover_witness :
    ChunkCoord.mk 0 0 ∈ get_visible_chunks 0 0 10 100 100 ∧
      rectsIntersect (chunkRect ⟨1, 1⟩) ⟨0, 0, 0 + 100 / 10 + 64, 0 + 100 / 10 + 64⟩ := by
  have hfl : (⌊(0 : ℚ) / 64⌋ : Int) = 0 := by norm_num
  have hce : (⌈((0 : ℚ) + 100 / 10) / 64⌉ : Int) = 1 := by
    rw [show ((0 : ℚ) + 100 / 10) / 64 = 5 / 32 by norm_num, Int.ceil_eq_iff]
    norm_num
  have h := visible_chunks_cover 0 0 10 100 100 5 5 ⟨1, 1⟩ (by norm_num) (by norm_num)
    (by norm_num) (by rw [hfl]; norm_num) (by rw [hce]; norm_num)
    (by rw [hfl]; norm_num) (by rw [hce]; norm_num)
  constructor
  · have h1 := h.1 (by norm_num) (by norm_num) (by norm_num) (by norm_num)
    have e : (⌊(5 : ℚ) / 64⌋ : Int) = 0 := by norm_num
    rw [e] at h1
    exact h1
  · refine h.2 ?_
    rw [mem_get_visible_chunks, hfl, hce]
    unfold i32sat
    norm_num
